import Mathlib

/-!
Shallow embedding of the per-workspace core of the penrose tiling window
manager: the `Workspace` type of `src/workspace.rs` together with the cyclic
`Ring` container and the layout descriptors it is built on.

`src/workspace.rs` is embedded directly.  The `Ring` container, `Layout`,
`LayoutConf`, `Region`, `ResizeAction`, `Client` and `Direction` live in the
repository's `data_types.rs` / `layout.rs` / `client.rs`, which are not part
of the provided sources; those are modelled from the specification (its §3
data model and §4.1 Ring contract), as marked on each definition.

Rust `panic!` / `.unwrap()` paths are modelled with `Option`: a `none` result
of a fallible wrapper stands for process termination.  `WinId` (Rust `u32`)
carries no arithmetic here, only equality, so it is modelled as `Nat`.
-/

namespace Penrose

/-- Modelled from the spec: the two cyclic navigation directions. -/
inductive Direction where
  | Forward
  | Backward
deriving DecidableEq, Repr

/-- Window identifiers are opaque keys (Rust `u32`; only equality is used). -/
abbrev WinId := Nat

/-- Modelled from the spec (§3, §4.1): an ordered sequence with an optional
focus index.  Invariant (stated separately as `Ring.Inv`): the focus is
`none` iff the sequence is empty, otherwise a valid index. -/
structure Ring (α : Type) where
  elements : List α
  focus : Option Nat
deriving DecidableEq, Repr

namespace Ring

variable {α : Type}

/-- Modelled from the spec: `new` focuses index 0 if non-empty, else unfocused. -/
def new (xs : List α) : Ring α :=
  ⟨xs, if xs.isEmpty then none else some 0⟩

/-- Number of elements. -/
def len (r : Ring α) : Nat := r.elements.length

/-- Modelled from the spec: the element at the focus index, or `none` if empty. -/
def focused (r : Ring α) : Option α :=
  r.focus.bind fun i => r.elements[i]?

/-- Modelled from the spec: insertion shifting subsequent elements right and
re-focusing onto the newly inserted element (the spec fixes this behaviour
for the front insertion, the only insertion point the Workspace uses). -/
def insert (r : Ring α) (i : Nat) (x : α) : Ring α :=
  ⟨r.elements.insertIdx i x, some i⟩

/-- Modelled from the spec: move focus to the first element satisfying the
predicate; no-op (focus unchanged) when no element matches. -/
def focus_by (r : Ring α) (p : α → Bool) : Ring α :=
  match r.elements.findIdx? p with
  | none => r
  | some j => ⟨r.elements, some j⟩

/-- Modelled from the spec: remove the first element matching the predicate,
preserving the order of the rest.  If the removed element was focused, focus
moves to the element now occupying the same index, clamped to the new length
(unfocused if now empty); a removal strictly before the focus shifts the
focus index down by one so it keeps tracking the same logical element. -/
def remove_by (r : Ring α) (p : α → Bool) : Option α × Ring α :=
  match r.elements.findIdx? p with
  | none => (none, r)
  | some j =>
    let newElems := r.elements.eraseIdx j
    let newFocus : Option Nat :=
      match r.focus with
      | none => none
      | some i =>
        if newElems.length = 0 then none
        else if j < i then some (i - 1)
        else if j = i then some (min i (newElems.length - 1))
        else some i
    (r.elements[j]?, ⟨newElems, newFocus⟩)

/-- Modelled from the spec: remove the element at the current focus index with
the same re-focus rule as `remove_by`. -/
def remove_focused (r : Ring α) : Option α × Ring α :=
  match r.focus with
  | none => (none, r)
  | some i =>
    let newElems := r.elements.eraseIdx i
    let newFocus : Option Nat :=
      if newElems.length = 0 then none else some (min i (newElems.length - 1))
    (r.elements[i]?, ⟨newElems, newFocus⟩)

/-- Modelled from the spec: true iff advancing the focus one step in the given
direction would cross the sequence boundary; `false` for 0 or 1 element. -/
def would_wrap (r : Ring α) (d : Direction) : Bool :=
  if r.elements.length < 2 then false
  else
    match r.focus, d with
    | some i, .Forward => i == r.elements.length - 1
    | some i, .Backward => i == 0
    | none, _ => false

/-- Modelled from the spec: the index one cyclic step away in the given
direction (wrapping at the ends). -/
def next_index (len i : Nat) (d : Direction) : Nat :=
  match d with
  | .Forward => (i + 1) % len
  | .Backward => (i + len - 1) % len

/-- Modelled from the spec: move the focus one step, wrapping at the ends;
returns the newly focused element, or `none` if the ring is empty. -/
def cycle_focus (r : Ring α) (d : Direction) : Option α × Ring α :=
  match r.focus with
  | none => (none, r)
  | some i =>
    let j := next_index r.elements.length i d
    (r.elements[j]?, ⟨r.elements, some j⟩)

/-- Modelled from the spec: swap the focused element with its cyclic neighbour
in the given direction (a wrap moves it across the boundary, shifting the
rest), keeping focus attached to the moved element; `none` (no change) if the
ring has fewer than 2 elements. -/
def drag_focused (r : Ring α) (d : Direction) : Option α × Ring α :=
  if r.elements.length < 2 then (none, r)
  else
    match r.focus with
    | none => (none, r)
    | some i =>
      match r.elements[i]? with
      | none => (none, r)
      | some x =>
        let j := next_index r.elements.length i d
        (some x, ⟨(r.elements.eraseIdx i).insertIdx j x, some j⟩)

/-- The Ring focus invariant of the spec: focus is `none` iff the sequence is
empty, otherwise a valid index into it. -/
def Inv (r : Ring α) : Prop :=
  (r.focus = none ↔ r.elements = []) ∧ ∀ i, r.focus = some i → i < r.elements.length

end Ring

/-- Modelled from the spec: the layout configuration record; only the
follow-focus flag (wrap suppression for client navigation) is consulted by
the Workspace code. -/
structure LayoutConf where
  follow_focus : Bool
deriving DecidableEq, Repr

/-- Modelled from the spec: a rectangular screen region. -/
structure Region where
  x : Nat
  y : Nat
  w : Nat
  h : Nat
deriving DecidableEq, Repr

/-- Modelled from the spec: client metadata is opaque to the Workspace; only
the identifier is observable here. -/
structure Client where
  id : WinId
deriving DecidableEq, Repr

/-- Modelled from the spec: a placement instruction, target plus geometry. -/
abbrev ResizeAction := WinId × Region

/-- Modelled from the spec: a layout descriptor: display symbol, configuration
and an opaque arrangement capability producing placement instructions from an
ordered client list, a focus hint and a region.  The mutable numeric layout
parameters (max-main count, main ratio) are not consulted by any operation
embedded here so they are omitted. -/
structure Layout where
  symbol : String
  conf : LayoutConf
  arrange : List Client → Option WinId → Region → List ResizeAction

/-- The `Workspace` of `src/workspace.rs`: a name, a ring of client window
identifiers and a ring of layouts. -/
structure Workspace where
  name : String
  clients : Ring WinId
  layouts : Ring Layout

namespace Workspace

/-- `Workspace::new`: `none` models the `panic!` on an empty layout list. -/
def new (name : String) (layouts : List Layout) : Option Workspace :=
  if layouts.length = 0 then none
  else some { name := name, clients := Ring.new [], layouts := Ring.new layouts }

/-- `Workspace::len`. -/
def len (ws : Workspace) : Nat := ws.clients.len

/-- `Workspace::iter`: the clients in position order. -/
def iter (ws : Workspace) : List WinId := ws.clients.elements

/-- `Workspace::focused_client`. -/
def focused_client (ws : Workspace) : Option WinId := ws.clients.focused

/-- `Workspace::add_client`: insert at the top of the stack and focus it. -/
def add_client (ws : Workspace) (id : WinId) : Workspace :=
  { ws with clients := ws.clients.insert 0 id }

/-- `Workspace::focus_client`.  The Rust code unwraps the focused client after
the emptiness check; a broken focus (impossible under `Ring.Inv`) would panic
there, which the `Option` in the first component also covers. -/
def focus_client (ws : Workspace) (id : WinId) : Option WinId × Workspace :=
  if ws.clients.len = 0 then (none, ws)
  else (ws.clients.focused, { ws with clients := ws.clients.focus_by (fun c => c == id) })

/-- `Workspace::remove_client`. -/
def remove_client (ws : Workspace) (id : WinId) : Option WinId × Workspace :=
  let res := ws.clients.remove_by (fun c => c == id)
  (res.1, { ws with clients := res.2 })

/-- `Workspace::remove_focused_client`. -/
def remove_focused_client (ws : Workspace) : Option WinId × Workspace :=
  let res := ws.clients.remove_focused
  (res.1, { ws with clients := res.2 })

/-- Resolving every client identifier against the registry, in ring order;
`none` models the `.unwrap()` panic on a missing registry entry. -/
def resolve_clients (client_map : WinId → Option Client) : List WinId → Option (List Client)
  | [] => some []
  | id :: rest =>
    match client_map id, resolve_clients client_map rest with
    | some c, some cs => some (c :: cs)
    | _, _ => none

/-- `Workspace::arrange`: empty client ring yields the empty action list;
otherwise the focused layout is applied to the resolved clients.  The outer
`none` models the fatal lookup (or the unreachable focused-layout unwrap). -/
def arrange (ws : Workspace) (screen_region : Region)
    (client_map : WinId → Option Client) : Option (List ResizeAction) :=
  if ws.clients.len > 0 then
    match ws.layouts.focused with
    | none => none
    | some layout =>
      match resolve_clients client_map ws.clients.elements with
      | none => none
      | some clients => some (layout.arrange clients ws.focused_client screen_region)
  else some []

/-- `Workspace::layout_symbol`: `none` models the unwrap on an empty layout
ring (unreachable for constructed workspaces). -/
def layout_symbol (ws : Workspace) : Option String :=
  ws.layouts.focused.map Layout.symbol

/-- `Workspace::layout_conf`: `none` models the same unreachable unwrap. -/
def layout_conf (ws : Workspace) : Option LayoutConf :=
  ws.layouts.focused.map Layout.conf

/-- `Workspace::cycle_layout`: advance the layout ring focus, then report the
new layout symbol. -/
def cycle_layout (ws : Workspace) (direction : Direction) : Option String × Workspace :=
  let res := ws.layouts.cycle_focus direction
  let ws2 := { ws with layouts := res.2 }
  (ws2.layout_symbol, ws2)

/-- `Workspace::cycle_client`. -/
def cycle_client (ws : Workspace) (direction : Direction) :
    Option (WinId × WinId) × Workspace :=
  if ws.clients.len < 2 then (none, ws)
  else
    match ws.layout_conf with
    | none => (none, ws)
    | some conf =>
      if conf.follow_focus && ws.clients.would_wrap direction then (none, ws)
      else
        match ws.clients.focused with
        | none => (none, ws)
        | some prev =>
          let res := ws.clients.cycle_focus direction
          let ws2 := { ws with clients := res.2 }
          match res.1 with
          | none => (none, ws2)
          | some nw => (if prev ≠ nw then some (prev, nw) else none, ws2)

/-- `Workspace::drag_client`. -/
def drag_client (ws : Workspace) (direction : Direction) : Option WinId × Workspace :=
  match ws.layout_conf with
  | none => (none, ws)
  | some conf =>
    if conf.follow_focus && ws.clients.would_wrap direction then (none, ws)
    else
      let res := ws.clients.drag_focused direction
      (res.1, { ws with clients := res.2 })

end Workspace


/-- A concrete arrangement capability for witnesses: one action per client,
mirroring the repository's mock layout. -/
def mock_layout : List Client → Option WinId → Region → List ResizeAction :=
  fun cs _ r => cs.map (fun c => (c.id, r))

/-- A concrete layout with follow-focus off, for witnesses. -/
def tLayout : Layout := ⟨"t", ⟨false⟩, mock_layout⟩

/-- A concrete layout with follow-focus on, for witnesses. -/
def ffLayout : Layout := ⟨"f", ⟨true⟩, mock_layout⟩

/-- The client-mutating workspace operations of claim C1. -/
inductive WsOp where
  | add_client (id : WinId)
  | remove_client (id : WinId)
  | remove_focused_client
  | focus_client (id : WinId)
  | cycle_client (d : Direction)
  | drag_client (d : Direction)
deriving DecidableEq, Repr

/-- Apply one workspace operation, discarding the reported value. -/
def applyOp (ws : Workspace) (op : WsOp) : Workspace :=
  match op with
  | .add_client id => ws.add_client id
  | .remove_client id => (ws.remove_client id).2
  | .remove_focused_client => ws.remove_focused_client.2
  | .focus_client id => (ws.focus_client id).2
  | .cycle_client d => (ws.cycle_client d).2
  | .drag_client d => (ws.drag_client d).2

/-- Apply a sequence of workspace operations in order. -/
def applyOps (ws : Workspace) (ops : List WsOp) : Workspace :=
  ops.foldl applyOp ws

/-- Concrete workspace for the C1 witness. -/
def wsA : Workspace := ⟨"a", Ring.new [1, 2], Ring.new [tLayout]⟩

/-- Concrete operation sequence for the C1 witness. -/
def opsA : List WsOp :=
  [WsOp.add_client 7, WsOp.cycle_client Direction.Forward,
   WsOp.remove_client 1, WsOp.drag_client Direction.Backward,
   WsOp.focus_client 2, WsOp.remove_focused_client]

/-- Concrete workspace for the C5 witness: a follow-focus layout and the
client focus at the forward boundary. -/
def wsFF : Workspace := ⟨"t", ⟨[1, 2, 3], some 2⟩, Ring.new [ffLayout]⟩

/-- Concrete workspace for the C3 and C9 witnesses. -/
def wsR : Workspace := ⟨"t", Ring.new [13, 42], Ring.new [tLayout]⟩

/-- Concrete workspace for the C10 witness: layout focus at the forward
boundary of a two-layout ring whose active layout has follow-focus set. -/
def wsL : Workspace := ⟨"t", Ring.new [1], ⟨[ffLayout, tLayout], some 1⟩⟩

/-- Concrete three-client workspace for the C6 witness. -/
def ws6 : Workspace := ⟨"t", Ring.new [1, 2, 3], Ring.new [tLayout]⟩

/-- Concrete empty-client workspace for the C6 witness. -/
def ws6e : Workspace := ⟨"t", Ring.new [], Ring.new [tLayout]⟩

/-- A total client registry for the C6 witness. -/
def cmAll : WinId → Option Client := fun i => some ⟨i⟩

/-- An everywhere-missing client registry for the C6 witness. -/
def cmNone : WinId → Option Client := fun _ => none

/-- A concrete screen region for the C6 witness. -/
def regionA : Region := ⟨0, 0, 2000, 1000⟩

/-- Concrete workspace with duplicate client identifiers, for the C2
counterexample. -/
def wsDup : Workspace := ⟨"t", Ring.new [5, 5], Ring.new [tLayout]⟩

/-- Concrete workspace with distinct client identifiers, for the C2 witness. -/
def wsTwo : Workspace := ⟨"t", Ring.new [5, 7], Ring.new [tLayout]⟩

/-- The additive index step of one cyclic move: 1 forward, `len - 1`
backward. -/
def Direction.step (d : Direction) (len : Nat) : Nat :=
  match d with
  | .Forward => 1
  | .Backward => len - 1

/-- Iterated application of `drag_client` in a fixed direction, discarding the
reported values. -/
def dragIter (ws : Workspace) (d : Direction) : Nat → Workspace
  | 0 => ws
  | k + 1 => ((dragIter ws d k).drag_client d).2

/-- Concrete four-client workspace for the C4 witness (spec scenario A). -/
def ws4 : Workspace := ⟨"t", Ring.new [1, 2, 3, 4], Ring.new [tLayout]⟩

/-! Ring lemmas -/

section RingLemmas

variable {α : Type}


theorem Ring.inv_def {r : Ring α}
    (h1 : r.focus = none → r.elements = [])
    (h2 : ∀ i, r.focus = some i → i < r.elements.length) : r.Inv := by
  refine ⟨⟨h1, fun he => ?_⟩, h2⟩
  cases hf : r.focus with
  | none => rfl
  | some i =>
    have hlt := h2 i hf
    rw [he] at hlt
    simp at hlt

theorem Ring.next_index_lt {n : Nat} (h : 0 < n) (i : Nat) (d : Direction) :
    next_index n i d < n := by
  cases d <;> simp only [next_index] <;> exact Nat.mod_lt _ h

theorem Ring.focused_of_focus {r : Ring α} {i : Nat} (hf : r.focus = some i) :
    r.focused = r.elements[i]? := by
  simp [focused, hf]

theorem Ring.focused_of_none {r : Ring α} (hf : r.focus = none) : r.focused = none := by
  simp [focused, hf]

theorem Ring.focus_by_of_none {r : Ring α} {p : α → Bool}
    (h : r.elements.findIdx? p = none) : r.focus_by p = r := by
  simp [focus_by, h]

theorem Ring.focus_by_of_some {r : Ring α} {p : α → Bool} {j : Nat}
    (h : r.elements.findIdx? p = some j) : r.focus_by p = ⟨r.elements, some j⟩ := by
  simp [focus_by, h]

theorem Ring.remove_by_of_none {r : Ring α} {p : α → Bool}
    (h : r.elements.findIdx? p = none) : r.remove_by p = (none, r) := by
  simp [remove_by, h]

theorem Ring.remove_by_of_some {r : Ring α} {p : α → Bool} {j i : Nat}
    (h : r.elements.findIdx? p = some j) (hf : r.focus = some i) :
    r.remove_by p = (r.elements[j]?,
      ⟨r.elements.eraseIdx j,
        if (r.elements.eraseIdx j).length = 0 then none
        else if j < i then some (i - 1)
        else if j = i then some (min i ((r.elements.eraseIdx j).length - 1))
        else some i⟩) := by
  simp [remove_by, h, hf]

theorem Ring.remove_focused_of_none {r : Ring α} (hf : r.focus = none) :
    r.remove_focused = (none, r) := by
  simp [remove_focused, hf]

theorem Ring.remove_focused_of_some {r : Ring α} {i : Nat} (hf : r.focus = some i) :
    r.remove_focused = (r.elements[i]?,
      ⟨r.elements.eraseIdx i,
        if (r.elements.eraseIdx i).length = 0 then none
        else some (min i ((r.elements.eraseIdx i).length - 1))⟩) := by
  simp [remove_focused, hf]

theorem Ring.cycle_focus_of_none {r : Ring α} (hf : r.focus = none) (d : Direction) :
    r.cycle_focus d = (none, r) := by
  simp [cycle_focus, hf]

theorem Ring.cycle_focus_of_some {r : Ring α} {i : Nat} (hf : r.focus = some i) (d : Direction) :
    r.cycle_focus d = (r.elements[next_index r.elements.length i d]?,
      ⟨r.elements, some (next_index r.elements.length i d)⟩) := by
  simp [cycle_focus, hf]

theorem Ring.drag_focused_of_short {r : Ring α} (h : r.elements.length < 2) (d : Direction) :
    r.drag_focused d = (none, r) := by
  simp [drag_focused, h]

theorem Ring.drag_focused_of_none {r : Ring α} (h : ¬ r.elements.length < 2)
    (hf : r.focus = none) (d : Direction) : r.drag_focused d = (none, r) := by
  simp [drag_focused, h, hf]

theorem Ring.drag_focused_of_some {r : Ring α} {i : Nat} {x : α}
    (h : ¬ r.elements.length < 2) (hf : r.focus = some i)
    (hget : r.elements[i]? = some x) (d : Direction) :
    r.drag_focused d = (some x,
      ⟨(r.elements.eraseIdx i).insertIdx (next_index r.elements.length i d) x,
        some (next_index r.elements.length i d)⟩) := by
  simp [drag_focused, h, hf, hget]

theorem Ring.would_wrap_of_short {r : Ring α} (h : r.elements.length < 2) (d : Direction) :
    r.would_wrap d = false := by
  simp [would_wrap, h]

theorem Ring.inv_new (xs : List α) : (new xs).Inv := by
  refine inv_def (fun h => ?_) (fun i hi => ?_) <;> by_cases he : xs.isEmpty
  · simpa using he
  · simp [new, he] at h
  · simp [new, he] at hi
  · simp [new, he] at hi
    subst hi
    have : xs ≠ [] := by simpa using he
    exact List.length_pos.mpr this

theorem Ring.inv_insert_zero (r : Ring α) (x : α) : (r.insert 0 x).Inv := by
  unfold insert
  rw [List.insertIdx_zero]
  refine inv_def (fun h => by simp at h) (fun i hi => ?_)
  simp at hi
  subst hi
  simp

theorem Ring.inv_focus_by (r : Ring α) (p : α → Bool) (h : r.Inv) : (r.focus_by p).Inv := by
  cases hfind : r.elements.findIdx? p with
  | none => rw [focus_by_of_none hfind]; exact h
  | some j =>
    rw [focus_by_of_some hfind]
    rw [List.findIdx?_eq_some_iff_findIdx_eq] at hfind
    refine inv_def (fun hc => by simp at hc) (fun i hi => ?_)
    simp at hi
    subst hi
    exact hfind.1

theorem Ring.inv_cycle_focus (r : Ring α) (d : Direction) (h : r.Inv) : (r.cycle_focus d).2.Inv := by
  cases hf : r.focus with
  | none => rw [cycle_focus_of_none hf]; exact h
  | some i =>
    rw [cycle_focus_of_some hf]
    have hi := h.2 i hf
    refine inv_def (fun hc => by simp at hc) (fun k hk => ?_)
    simp at hk
    subst hk
    exact next_index_lt (by omega) i d

theorem Ring.inv_remove_focused (r : Ring α) (h : r.Inv) : r.remove_focused.2.Inv := by
  cases hf : r.focus with
  | none => rw [remove_focused_of_none hf]; exact h
  | some i =>
    rw [remove_focused_of_some hf]
    have hi := h.2 i hf
    have hlen : (r.elements.eraseIdx i).length = r.elements.length - 1 := by
      rw [List.length_eraseIdx]
      simp [hi]
    by_cases hz : (r.elements.eraseIdx i).length = 0
    · rw [if_pos hz]
      exact inv_def (fun _ => List.length_eq_zero.mp hz) (fun k hk => by simp at hk)
    · rw [if_neg hz]
      refine inv_def (fun hc => by simp at hc) (fun k hk => ?_)
      simp only [Option.some_inj] at hk
      subst hk
      have hmin : min i ((r.elements.eraseIdx i).length - 1)
          ≤ (r.elements.eraseIdx i).length - 1 := Nat.min_le_right _ _
      simp only []
      omega

theorem Ring.inv_remove_by (r : Ring α) (p : α → Bool) (h : r.Inv) : (r.remove_by p).2.Inv := by
  cases hfind : r.elements.findIdx? p with
  | none => rw [remove_by_of_none hfind]; exact h
  | some j =>
    cases hf : r.focus with
    | none =>
      have hnil : r.elements = [] := h.1.mp hf
      rw [hnil] at hfind
      simp at hfind
    | some i =>
      rw [remove_by_of_some hfind hf]
      rw [List.findIdx?_eq_some_iff_findIdx_eq] at hfind
      obtain ⟨hj, -⟩ := hfind
      have hi := h.2 i hf
      have hlen : (r.elements.eraseIdx j).length = r.elements.length - 1 := by
        rw [List.length_eraseIdx]
        simp [hj]
      by_cases hz : (r.elements.eraseIdx j).length = 0
      · rw [if_pos hz]
        exact inv_def (fun _ => List.length_eq_zero.mp hz) (fun k hk => by simp at hk)
      · rw [if_neg hz]
        by_cases hji : j < i
        · rw [if_pos hji]
          refine inv_def (fun hc => by simp at hc) (fun k hk => ?_)
          simp only [Option.some_inj] at hk
          subst hk
          simp only []
          omega
        · rw [if_neg hji]
          by_cases hje : j = i
          · rw [if_pos hje]
            refine inv_def (fun hc => by simp at hc) (fun k hk => ?_)
            simp only [Option.some_inj] at hk
            subst hk
            have hmin : min i ((r.elements.eraseIdx j).length - 1)
                ≤ (r.elements.eraseIdx j).length - 1 := Nat.min_le_right _ _
            simp only []
            omega
          · rw [if_neg hje]
            refine inv_def (fun hc => by simp at hc) (fun k hk => ?_)
            simp only [Option.some_inj] at hk
            subst hk
            simp only []
            omega

theorem Ring.inv_drag_focused (r : Ring α) (d : Direction) (h : r.Inv) : (r.drag_focused d).2.Inv := by
  by_cases hlt : r.elements.length < 2
  · rw [drag_focused_of_short hlt]; exact h
  · cases hf : r.focus with
    | none => rw [drag_focused_of_none hlt hf]; exact h
    | some i =>
      have hi := h.2 i hf
      have hget : r.elements[i]? = some r.elements[i] := List.getElem?_eq_getElem hi
      rw [drag_focused_of_some hlt hf hget]
      have hj : next_index r.elements.length i d < r.elements.length :=
        next_index_lt (by omega) i d
      have hel : (r.elements.eraseIdx i).length = r.elements.length - 1 := by
        rw [List.length_eraseIdx]
        simp [hi]
      have hlen : ((r.elements.eraseIdx i).insertIdx (next_index r.elements.length i d)
          r.elements[i]).length = r.elements.length := by
        rw [List.length_insertIdx _ _ (by omega)]
        omega
      refine inv_def (fun hc => ?_) (fun k hk => ?_)
      · simp at hc
      · simp only [Option.some_inj] at hk
        subst hk
        simp only []
        omega

end RingLemmas


/-! Workspace lemmas -/

theorem Workspace.layout_conf_eq (ws : Workspace) :
    ws.layout_conf = ws.layouts.focused.map Layout.conf := rfl

theorem Workspace.focus_client_of_empty {ws : Workspace} (h : ws.clients.len = 0)
    (id : WinId) : ws.focus_client id = (none, ws) := by
  simp [Workspace.focus_client, h]

theorem Workspace.focus_client_of_nonempty {ws : Workspace} (h : ¬ ws.clients.len = 0)
    (id : WinId) : ws.focus_client id =
      (ws.clients.focused, { ws with clients := ws.clients.focus_by (fun c => c == id) }) := by
  simp [Workspace.focus_client, h]

theorem Workspace.cycle_client_clients (ws : Workspace) (d : Direction) :
    (ws.cycle_client d).2.clients = ws.clients ∨
    (ws.cycle_client d).2.clients = (ws.clients.cycle_focus d).2 := by
  unfold Workspace.cycle_client
  split
  · exact Or.inl rfl
  · split
    · exact Or.inl rfl
    · split
      · exact Or.inl rfl
      · split
        · exact Or.inl rfl
        · right
          dsimp only
          cases (ws.clients.cycle_focus d).1 <;> rfl

theorem Workspace.drag_client_clients (ws : Workspace) (d : Direction) :
    (ws.drag_client d).2.clients = ws.clients ∨
    (ws.drag_client d).2.clients = (ws.clients.drag_focused d).2 := by
  unfold Workspace.drag_client
  split
  · exact Or.inl rfl
  · split
    · exact Or.inl rfl
    · exact Or.inr rfl

theorem Workspace.clients_inv_applyOp {ws : Workspace} (op : WsOp) (h : ws.clients.Inv) :
    (applyOp ws op).clients.Inv := by
  cases op with
  | add_client id => exact Ring.inv_insert_zero ws.clients id
  | remove_client id => exact Ring.inv_remove_by ws.clients _ h
  | remove_focused_client => exact Ring.inv_remove_focused ws.clients h
  | focus_client id =>
    show (ws.focus_client id).2.clients.Inv
    by_cases he : ws.clients.len = 0
    · rw [Workspace.focus_client_of_empty he]; exact h
    · rw [Workspace.focus_client_of_nonempty he]
      exact Ring.inv_focus_by ws.clients _ h
  | cycle_client d =>
    show (ws.cycle_client d).2.clients.Inv
    rcases Workspace.cycle_client_clients ws d with hc | hc <;> rw [hc]
    · exact h
    · exact Ring.inv_cycle_focus ws.clients d h
  | drag_client d =>
    show (ws.drag_client d).2.clients.Inv
    rcases Workspace.drag_client_clients ws d with hc | hc <;> rw [hc]
    · exact h
    · exact Ring.inv_drag_focused ws.clients d h

theorem Workspace.clients_inv_applyOps (ops : List WsOp) (ws : Workspace)
    (h : ws.clients.Inv) : (applyOps ws ops).clients.Inv := by
  induction ops generalizing ws with
  | nil => exact h
  | cons op rest ih => exact ih _ (Workspace.clients_inv_applyOp op h)

theorem Ring.focused_isSome_iff {r : Ring α} (h : r.Inv) :
    r.focused.isSome = true ↔ 0 < r.len := by
  cases hf : r.focus with
  | none =>
    rw [Ring.focused_of_none hf]
    have : r.elements = [] := h.1.mp hf
    simp [Ring.len, this]
  | some i =>
    have hi := h.2 i hf
    rw [Ring.focused_of_focus hf, List.getElem?_eq_getElem hi]
    simp [Ring.len]
    omega

theorem Ring.focused_mem {r : Ring α} {x : α} (hx : r.focused = some x) :
    x ∈ r.elements := by
  cases hf : r.focus with
  | none => rw [Ring.focused_of_none hf] at hx; simp at hx
  | some i =>
    rw [Ring.focused_of_focus hf] at hx
    obtain ⟨hlt, he⟩ := List.getElem?_eq_some.mp hx
    exact he ▸ List.getElem_mem hlt


/-! Claim C1 -/

/-- C1: for every workspace whose client ring satisfies the Ring focus
invariant, after any sequence of the client-mutating workspace operations
(add, remove, remove-focused, focus, cycle, drag) the focus invariant still
holds: `focused_client` is `some` exactly when `len` is positive, and any
focused client is an element of the client ring. -/
theorem c1_focus_invariant (ws : Workspace) (ops : List WsOp) (h : ws.clients.Inv) :
    (applyOps ws ops).clients.Inv ∧
    ((applyOps ws ops).focused_client.isSome = true ↔ 0 < (applyOps ws ops).len) ∧
    (∀ c, (applyOps ws ops).focused_client = some c → c ∈ (applyOps ws ops).iter) := by
  have hinv := Workspace.clients_inv_applyOps ops ws h
  exact ⟨hinv, Ring.focused_isSome_iff hinv, fun c hc => Ring.focused_mem hc⟩

/-- Witness for C1: the invariant conclusion at a concrete workspace and a
concrete six-operation sequence. -/
theorem c1_focus_invariant_witness :
    (applyOps wsA opsA).clients.Inv ∧
    ((applyOps wsA opsA).focused_client.isSome = true ↔ 0 < (applyOps wsA opsA).len) ∧
    (∀ c, (applyOps wsA opsA).focused_client = some c → c ∈ (applyOps wsA opsA).iter) :=
  c1_focus_invariant wsA opsA (Ring.inv_new [1, 2])


/-! Claims C5, C7, C8 -/

/-- C5: when the active layout has follow-focus set and one step of the client
focus in the given direction would wrap across the boundary, both
`cycle_client` and `drag_client` return `none` and leave the whole workspace
unchanged. -/
theorem c5_wrap_suppression (ws : Workspace) (d : Direction) (conf : LayoutConf)
    (hconf : ws.layout_conf = some conf) (hff : conf.follow_focus = true)
    (hw : ws.clients.would_wrap d = true) :
    ws.cycle_client d = (none, ws) ∧ ws.drag_client d = (none, ws) := by
  constructor
  · unfold Workspace.cycle_client
    rw [hconf]
    by_cases h2 : ws.clients.len < 2
    · rw [if_pos h2]
    · rw [if_neg h2]
      simp [hff, hw]
  · unfold Workspace.drag_client
    rw [hconf]
    simp [hff, hw]

/-- Witness for C5: a 3-client ring focused at the forward boundary under a
follow-focus layout; both operations refuse and leave the workspace intact. -/
theorem c5_wrap_suppression_witness :
    wsFF.cycle_client Direction.Forward = (none, wsFF) ∧
    wsFF.drag_client Direction.Forward = (none, wsFF) :=
  c5_wrap_suppression wsFF Direction.Forward ⟨true⟩ rfl rfl rfl

/-- C7: `Workspace::new` fails (panics) exactly when the layout list is empty,
and otherwise builds a workspace with an empty, unfocused client ring and a
layout ring holding the given layouts focused on the first. -/
theorem c7_new (name : String) (layouts : List Layout) :
    (Workspace.new name layouts = none ↔ layouts = []) ∧
    (layouts ≠ [] → Workspace.new name layouts =
      some ⟨name, ⟨[], none⟩, ⟨layouts, some 0⟩⟩) := by
  cases layouts with
  | nil => simp [Workspace.new]
  | cons a t =>
    constructor
    · simp [Workspace.new]
    · intro h
      simp [Workspace.new, Ring.new]

/-- Witness for C7: construction from a singleton layout list succeeds with an
empty client ring and focus on the first layout. -/
theorem c7_new_witness :
    Workspace.new "main" [tLayout] = some ⟨"main", ⟨[], none⟩, ⟨[tLayout], some 0⟩⟩ :=
  (c7_new "main" [tLayout]).2 (by simp)

/-- C8: `add_client` puts the new identifier at index 0, shifts every previous
client one position back (preserving relative order), and focuses it. -/
theorem c8_add_client (ws : Workspace) (id : WinId) :
    (ws.add_client id).clients.elements = id :: ws.clients.elements ∧
    (ws.add_client id).focused_client = some id := by
  constructor
  · show (ws.clients.insert 0 id).elements = _
    simp [Ring.insert, List.insertIdx_zero]
  · show (ws.clients.insert 0 id).focused = some id
    simp [Ring.insert, Ring.focused, List.insertIdx_zero]


/-! Claims C3, C9 -/

/-- Components of `remove_by` on a match, independent of the focus. -/
theorem Ring.remove_by_parts {r : Ring α} {p : α → Bool} {j : Nat}
    (h : r.elements.findIdx? p = some j) :
    (r.remove_by p).1 = r.elements[j]? ∧
    (r.remove_by p).2.elements = r.elements.eraseIdx j := by
  cases hf : r.focus <;> simp [Ring.remove_by, h, hf]

/-- C3: `focus_client` returns `none` iff the client ring is empty; on a
non-empty ring it returns the previously focused client (as `some`), even when
the requested id is absent, in which case the workspace is left unchanged. -/
theorem c3_focus_client (ws : Workspace) (id : WinId) (h : ws.clients.Inv) :
    ((ws.focus_client id).1 = none ↔ ws.len = 0) ∧
    (0 < ws.len → (ws.focus_client id).1 = ws.focused_client ∧
      (ws.focused_client).isSome = true) ∧
    (id ∉ ws.clients.elements → (ws.focus_client id).2 = ws) := by
  by_cases he : ws.clients.len = 0
  · rw [Workspace.focus_client_of_empty he]
    refine ⟨by simp [Workspace.len, he], fun hpos => ?_, fun _ => rfl⟩
    exact absurd hpos (by simp [Workspace.len, he])
  · rw [Workspace.focus_client_of_nonempty he]
    have hsome : ws.clients.focused.isSome = true :=
      (Ring.focused_isSome_iff h).mpr (by omega)
    obtain ⟨v, hv⟩ := Option.isSome_iff_exists.mp hsome
    refine ⟨?_, fun _ => ⟨rfl, hsome⟩, fun hid => ?_⟩
    · simp [hv, Workspace.len]
      omega
    · have hfe : ws.clients.elements.findIdx? (fun c => c == id) = none := by
        rw [List.findIdx?_eq_none_iff]
        intro x hx
        exact beq_eq_false_iff_ne.mpr (fun hxe => hid (hxe ▸ hx))
      rw [Ring.focus_by_of_none hfe]

/-- Witness for C3: a two-client ring asked to focus an absent id 99 reports
the previous focus and is left unchanged. -/
theorem c3_focus_client_witness :
    (((wsR.focus_client 99).1 = none ↔ wsR.len = 0) ∧
     (0 < wsR.len → (wsR.focus_client 99).1 = wsR.focused_client ∧
       (wsR.focused_client).isSome = true) ∧
     (99 ∉ wsR.clients.elements → (wsR.focus_client 99).2 = wsR)) :=
  c3_focus_client wsR 99 (Ring.inv_new [13, 42])

/-- C9: `remove_client` on a present id returns it and shrinks the ring by
exactly one; on an absent id it returns `none` and leaves the workspace
completely unchanged. -/
theorem c9_remove_client (ws : Workspace) (id : WinId) :
    (id ∈ ws.clients.elements →
      (ws.remove_client id).1 = some id ∧
      (ws.remove_client id).2.len = ws.len - 1 ∧ 0 < ws.len) ∧
    (id ∉ ws.clients.elements → ws.remove_client id = (none, ws)) := by
  constructor
  · intro hid
    cases hfind : ws.clients.elements.findIdx? (fun c => c == id) with
    | none =>
      rw [List.findIdx?_eq_none_iff] at hfind
      have := hfind id hid
      simp at this
    | some j =>
      obtain ⟨h1, h2⟩ := Ring.remove_by_parts hfind
      rw [List.findIdx?_eq_some_iff_findIdx_eq] at hfind
      obtain ⟨hj, hfi⟩ := hfind
      subst hfi
      have hgj : ws.clients.elements[ws.clients.elements.findIdx (fun c => c == id)] = id := by
        have hpj := @List.findIdx_getElem _ (fun c => c == id) ws.clients.elements hj
        simpa using hpj
      refine ⟨?_, ?_, ?_⟩
      · show (ws.clients.remove_by _).1 = some id
        rw [h1, List.getElem?_eq_getElem hj, hgj]
      · show (ws.clients.remove_by _).2.len = ws.clients.len - 1
        unfold Ring.len
        rw [h2, List.length_eraseIdx]
        simp [hj]
      · show 0 < ws.clients.len
        unfold Ring.len
        omega
  · intro hid
    have hfe : ws.clients.elements.findIdx? (fun c => c == id) = none := by
      rw [List.findIdx?_eq_none_iff]
      intro x hx
      exact beq_eq_false_iff_ne.mpr (fun hxe => hid (hxe ▸ hx))
    show (ws.remove_client id) = (none, ws)
    unfold Workspace.remove_client
    rw [Ring.remove_by_of_none hfe]

/-- Witness for C9: removing present id 42 from `[13, 42]` returns it and
shrinks the ring; removing absent id 99 is a reported no-op. -/
theorem c9_remove_client_witness :
    ((wsR.remove_client 42).1 = some 42 ∧
      (wsR.remove_client 42).2.len = wsR.len - 1 ∧ 0 < wsR.len) ∧
    wsR.remove_client 99 = (none, wsR) :=
  ⟨(c9_remove_client wsR 42).1 (by decide), (c9_remove_client wsR 99).2 (by decide)⟩


/-! Claims C10, C6 -/

/-- C10: `cycle_layout` unconditionally advances the layout ring focus one
cyclic step (wrapping at the boundary) and reports the new active layout
symbol; no follow-focus or would-wrap condition is consulted, those guards
apply only to client navigation. -/
theorem c10_cycle_layout (ws : Workspace) (d : Direction) (i : Nat)
    (hf : ws.layouts.focus = some i) (hi : i < ws.layouts.elements.length) :
    (ws.cycle_layout d).2 =
      { ws with layouts :=
          ⟨ws.layouts.elements, some (Ring.next_index ws.layouts.elements.length i d)⟩ } ∧
    (ws.cycle_layout d).1 =
      (ws.layouts.elements[Ring.next_index ws.layouts.elements.length i d]?).map
        Layout.symbol ∧
    ((ws.cycle_layout d).1).isSome = true := by
  have hchar := Ring.cycle_focus_of_some hf d
  have hj : Ring.next_index ws.layouts.elements.length i d < ws.layouts.elements.length :=
    Ring.next_index_lt (by omega) i d
  refine ⟨?_, ?_, ?_⟩
  · show { ws with layouts := (ws.layouts.cycle_focus d).2 } = _
    rw [hchar]
  · show ({ ws with layouts := (ws.layouts.cycle_focus d).2 }).layout_symbol = _
    unfold Workspace.layout_symbol
    rw [hchar]
    dsimp only
    rw [Ring.focused_of_focus rfl]
  · show (({ ws with layouts := (ws.layouts.cycle_focus d).2 }).layout_symbol).isSome = true
    unfold Workspace.layout_symbol
    rw [hchar]
    show ((Ring.mk ws.layouts.elements (some _)).focused.map Layout.symbol).isSome = true
    rw [Ring.focused_of_focus rfl, List.getElem?_eq_getElem hj]
    rfl

/-- Witness for C10: on a two-layout ring focused at index 1 whose active
layout has follow-focus set, a forward cycle still wraps to index 0 and
reports that layout's symbol. -/
theorem c10_cycle_layout_witness :
    (wsL.cycle_layout Direction.Forward).2 =
      { wsL with layouts :=
          ⟨wsL.layouts.elements,
            some (Ring.next_index wsL.layouts.elements.length 1 Direction.Forward)⟩ } ∧
    (wsL.cycle_layout Direction.Forward).1 =
      (wsL.layouts.elements[Ring.next_index wsL.layouts.elements.length 1
          Direction.Forward]?).map Layout.symbol ∧
    ((wsL.cycle_layout Direction.Forward).1).isSome = true :=
  c10_cycle_layout wsL Direction.Forward 1 rfl (by decide)

/-- Resolving succeeds when every identifier has a registry entry. -/
theorem Workspace.resolve_clients_of_all_some {cm : WinId → Option Client}
    {l : List WinId} (h : ∀ id ∈ l, (cm id).isSome = true) :
    ∃ cs, Workspace.resolve_clients cm l = some cs := by
  induction l with
  | nil => exact ⟨[], rfl⟩
  | cons a t ih =>
    obtain ⟨c, hc⟩ := Option.isSome_iff_exists.mp (h a (by simp))
    obtain ⟨cs, hcs⟩ := ih (fun id hid => h id (by simp [hid]))
    exact ⟨c :: cs, by simp [Workspace.resolve_clients, hc, hcs]⟩

/-- Resolving hits the fatal branch when some identifier is missing. -/
theorem Workspace.resolve_clients_of_missing {cm : WinId → Option Client}
    {l : List WinId} (h : ∃ id ∈ l, cm id = none) :
    Workspace.resolve_clients cm l = none := by
  induction l with
  | nil => obtain ⟨id, hmem, -⟩ := h; simp at hmem
  | cons a t ih =>
    obtain ⟨id, hmem, hnone⟩ := h
    simp at hmem
    rcases hmem with rfl | hmem
    · simp [Workspace.resolve_clients, hnone]
    · rw [Workspace.resolve_clients, ih ⟨id, hmem, hnone⟩]
      cases cm a <;> rfl

/-- C6: with a non-empty client ring and a registry entry for every ring
identifier, `arrange` resolves the clients in ring order and returns the
active layout's result (no fatal branch); if any ring identifier is missing
from the registry it hits the fatal branch (modelled `none`); on an empty
client ring it returns the empty action list. -/
theorem c6_arrange (ws : Workspace) (sr : Region) (cm : WinId → Option Client)
    (layout : Layout) (hl : ws.layouts.focused = some layout) :
    (ws.clients.elements ≠ [] →
      (∀ id ∈ ws.clients.elements, (cm id).isSome = true) →
      ∃ cs, Workspace.resolve_clients cm ws.clients.elements = some cs ∧
        ws.arrange sr cm = some (layout.arrange cs ws.focused_client sr)) ∧
    (ws.clients.elements = [] → ws.arrange sr cm = some []) ∧
    ((∃ id ∈ ws.clients.elements, cm id = none) → ws.arrange sr cm = none) := by
  refine ⟨fun hne hall => ?_, fun hnil => ?_, fun hmiss => ?_⟩
  · obtain ⟨cs, hcs⟩ := Workspace.resolve_clients_of_all_some hall
    refine ⟨cs, hcs, ?_⟩
    unfold Workspace.arrange
    rw [if_pos (show ws.clients.len > 0 from List.length_pos.mpr hne), hl]
    simp [hcs]
  · unfold Workspace.arrange
    rw [if_neg (show ¬ ws.clients.len > 0 by unfold Ring.len; simp [hnil])]
  · have hn := Workspace.resolve_clients_of_missing hmiss
    obtain ⟨id, hmem, -⟩ := hmiss
    unfold Workspace.arrange
    rw [if_pos (show ws.clients.len > 0 from
      List.length_pos.mpr (fun hnil => by rw [hnil] at hmem; simp at hmem)), hl]
    simp [hn]

/-- Witness for C6: a 3-client workspace under a total registry arranges via
the layout; the empty workspace arranges to `[]`; a missing registry entry is
fatal. -/
theorem c6_arrange_witness :
    (∃ cs, Workspace.resolve_clients cmAll ws6.clients.elements = some cs ∧
      ws6.arrange regionA cmAll = some (tLayout.arrange cs ws6.focused_client regionA)) ∧
    ws6e.arrange regionA cmAll = some [] ∧
    ws6.arrange regionA cmNone = none :=
  ⟨(c6_arrange ws6 regionA cmAll tLayout rfl).1 (by decide) (fun id _ => rfl),
   (c6_arrange ws6e regionA cmAll tLayout rfl).2.1 rfl,
   (c6_arrange ws6 regionA cmNone tLayout rfl).2.2 ⟨1, by decide, rfl⟩⟩


/-! Claim C2 -/

/-- Counterexample to C2 as stated: on the ring `[5, 5]` (two clients, no
follow-focus suppression, no sub-2 shortfall) a forward `cycle_client`
returns `none`, not `some (prev, new)`, because the previously and newly
focused identifiers coincide. -/
theorem c2_counterexample :
    wsDup.len = 2 ∧ wsDup.layout_conf = some ⟨false⟩ ∧
    wsDup.clients.would_wrap Direction.Forward = false ∧
    (wsDup.cycle_client Direction.Forward).1 = none :=
  ⟨rfl, rfl, rfl, rfl⟩

/-- One-step characterisation of `cycle_client` when no guard fires. -/
theorem Workspace.cycle_client_eq {ws : Workspace} {d : Direction} {conf : LayoutConf}
    {i : Nat} {prev nw : WinId}
    (h2 : ¬ ws.clients.len < 2) (hconf : ws.layout_conf = some conf)
    (hg : (conf.follow_focus && ws.clients.would_wrap d) = false)
    (hf : ws.clients.focus = some i)
    (hprev : ws.clients.elements[i]? = some prev)
    (hnw : ws.clients.elements[Ring.next_index ws.clients.elements.length i d]? = some nw) :
    ws.cycle_client d = (if prev ≠ nw then some (prev, nw) else none,
      { ws with clients :=
          ⟨ws.clients.elements, some (Ring.next_index ws.clients.elements.length i d)⟩ }) := by
  have hfoc : ws.clients.focused = some prev := by
    rw [Ring.focused_of_focus hf, hprev]
  unfold Workspace.cycle_client
  rw [if_neg h2, hconf]
  simp only [hg, Bool.false_eq_true, if_false, hfoc, Ring.cycle_focus_of_some hf, hnw]

/-- C2 (amended): `cycle_client` returns `none` with the workspace unchanged
when the ring has fewer than 2 clients or when the active layout follows
focus and the step would wrap; otherwise it advances the client focus one
cyclic step and returns `some (prev, new)` for the previously and newly
focused identifiers exactly when they differ (with duplicate identifiers in
the ring they can coincide, in which case it returns `none`). -/
theorem c2_cycle_client (ws : Workspace) (d : Direction) (conf : LayoutConf)
    (hconf : ws.layout_conf = some conf) (hinv : ws.clients.Inv) :
    (ws.clients.len < 2 → ws.cycle_client d = (none, ws)) ∧
    ((conf.follow_focus && ws.clients.would_wrap d) = true →
      ws.cycle_client d = (none, ws)) ∧
    (¬ ws.clients.len < 2 → (conf.follow_focus && ws.clients.would_wrap d) = false →
      ∃ i prev nw, ws.clients.focus = some i ∧
        ws.clients.elements[i]? = some prev ∧
        ws.clients.elements[Ring.next_index ws.clients.elements.length i d]? = some nw ∧
        ws.cycle_client d = (if prev ≠ nw then some (prev, nw) else none,
          { ws with clients :=
              ⟨ws.clients.elements,
                some (Ring.next_index ws.clients.elements.length i d)⟩ })) := by
  refine ⟨fun hlt => ?_, fun hg => ?_, fun h2 hg => ?_⟩
  · unfold Workspace.cycle_client
    rw [if_pos hlt]
  · by_cases hlt : ws.clients.len < 2
    · unfold Workspace.cycle_client
      rw [if_pos hlt]
    · unfold Workspace.cycle_client
      rw [if_neg hlt, hconf]
      simp [hg]
  · have h0 : 0 < ws.clients.elements.length := by
      unfold Ring.len at h2
      omega
    cases hf : ws.clients.focus with
    | none =>
      have hnil := hinv.1.mp hf
      rw [hnil] at h0
      simp at h0
    | some i =>
      have hi := hinv.2 i hf
      have hj := Ring.next_index_lt h0 i d
      exact ⟨i, ws.clients.elements[i],
        ws.clients.elements[Ring.next_index ws.clients.elements.length i d],
        rfl, List.getElem?_eq_getElem hi, List.getElem?_eq_getElem hj,
        Workspace.cycle_client_eq h2 hconf hg hf
          (List.getElem?_eq_getElem hi) (List.getElem?_eq_getElem hj)⟩

/-- Witness for C2 (amended): the conclusion instantiated at the two-client
ring `[5, 7]` with its follow-focus-off layout. -/
theorem c2_cycle_client_witness :
    (wsTwo.clients.len < 2 → wsTwo.cycle_client Direction.Forward = (none, wsTwo)) ∧
    (((LayoutConf.mk false).follow_focus &&
        wsTwo.clients.would_wrap Direction.Forward) = true →
      wsTwo.cycle_client Direction.Forward = (none, wsTwo)) ∧
    (¬ wsTwo.clients.len < 2 →
      ((LayoutConf.mk false).follow_focus &&
        wsTwo.clients.would_wrap Direction.Forward) = false →
      ∃ i prev nw, wsTwo.clients.focus = some i ∧
        wsTwo.clients.elements[i]? = some prev ∧
        wsTwo.clients.elements[Ring.next_index wsTwo.clients.elements.length i
          Direction.Forward]? = some nw ∧
        wsTwo.cycle_client Direction.Forward =
          (if prev ≠ nw then some (prev, nw) else none,
            { wsTwo with clients :=
                ⟨wsTwo.clients.elements,
                  some (Ring.next_index wsTwo.clients.elements.length i
                    Direction.Forward)⟩ })) :=
  c2_cycle_client wsTwo Direction.Forward ⟨false⟩ rfl (Ring.inv_new [5, 7])


/-! Claim C4 -/

/-- Inserting an element anywhere is a permutation of pushing it in front. -/
theorem insertIdx_perm {α : Type} (x : α) :
    ∀ (j : Nat) (l : List α), j ≤ l.length → (List.insertIdx j x l).Perm (x :: l) := by
  intro j
  induction j with
  | zero =>
    intro l _
    rw [List.insertIdx_zero]
  | succ j ih =>
    intro l hl
    cases l with
    | nil => simp at hl
    | cons a t =>
      rw [List.insertIdx_succ_cons]
      exact ((ih t (by simpa using hl)).cons a).trans (List.Perm.swap x a t)

/-- `next_index` as a uniform additive step modulo the length. -/
theorem Ring.next_index_eq {n : Nat} (h : 1 ≤ n) (i : Nat) (d : Direction) :
    Ring.next_index n i d = (i + d.step n) % n := by
  cases d with
  | Forward => rfl
  | Backward =>
    show (i + n - 1) % n = (i + (n - 1)) % n
    congr 1
    omega

/-- One drag step on a ring presented as `insertIdx i x r`: the focused
element `x` moves one cyclic position through the fixed rest `r`. -/
theorem Ring.drag_focused_insert {r : List WinId} {x : WinId} {i : Nat} (d : Direction)
    (hi : i ≤ r.length) (hr : 1 ≤ r.length) :
    (Ring.mk (List.insertIdx i x r) (some i)).drag_focused d =
      (some x, ⟨List.insertIdx (Ring.next_index (r.length + 1) i d) x r,
        some (Ring.next_index (r.length + 1) i d)⟩) := by
  have hlen : (List.insertIdx i x r).length = r.length + 1 := List.length_insertIdx i r hi
  have hget : (List.insertIdx i x r)[i]? = some x := by
    rw [List.getElem?_eq_getElem (by omega), List.getElem_insertIdx_self r x i hi]
  have hch := Ring.drag_focused_of_some
    (r := Ring.mk (List.insertIdx i x r) (some i)) (i := i) (x := x)
    (by dsimp only; omega) rfl hget d
  rw [hch]
  dsimp only
  rw [List.eraseIdx_insertIdx, hlen]

/-- One `drag_client` step under a non-follow-focus layout, on a client ring
presented as `insertIdx i x r`. -/
theorem Workspace.drag_client_insert {ws : Workspace} {d : Direction}
    {conf : LayoutConf} {r : List WinId} {x : WinId} {i : Nat}
    (hconf : ws.layout_conf = some conf) (hff : conf.follow_focus = false)
    (hc : ws.clients = ⟨List.insertIdx i x r, some i⟩)
    (hi : i ≤ r.length) (hr : 1 ≤ r.length) :
    ws.drag_client d = (some x,
      { ws with clients := ⟨List.insertIdx (Ring.next_index (r.length + 1) i d) x r,
          some (Ring.next_index (r.length + 1) i d)⟩ }) := by
  unfold Workspace.drag_client
  rw [hconf]
  simp only [hff, Bool.false_and, Bool.false_eq_true, if_false]
  rw [hc, Ring.drag_focused_insert d hi hr]

/-- Characterisation of iterated dragging: after `k` drags the dragged
element sits `k` cyclic steps away and everything else of the workspace is
unchanged. -/
theorem Workspace.dragIter_insert {ws : Workspace} {d : Direction}
    {conf : LayoutConf} {r : List WinId} {x : WinId} {i : Nat}
    (hconf : ws.layout_conf = some conf) (hff : conf.follow_focus = false)
    (hc : ws.clients = ⟨List.insertIdx i x r, some i⟩)
    (hi : i ≤ r.length) (hr : 1 ≤ r.length) :
    ∀ k, ∃ m, m ≤ r.length ∧
      dragIter ws d k = { ws with clients := ⟨List.insertIdx m x r, some m⟩ } ∧
      m = (i + k * d.step (r.length + 1)) % (r.length + 1) := by
  intro k
  induction k with
  | zero =>
    refine ⟨i, hi, ?_, ?_⟩
    · show ws = _
      rw [← hc]
    · rw [Nat.zero_mul, Nat.add_zero, Nat.mod_eq_of_lt (by omega)]
  | succ k ih =>
    obtain ⟨m, hm, heq, hmod⟩ := ih
    have hconf2 : (dragIter ws d k).layout_conf = some conf := by
      rw [heq]; exact hconf
    have hstep := Workspace.drag_client_insert (d := d)
      hconf2 hff (by rw [heq]) hm hr
    refine ⟨Ring.next_index (r.length + 1) m d, ?_, ?_, ?_⟩
    · have := Ring.next_index_lt (n := r.length + 1) (by omega) m d
      omega
    · show ((dragIter ws d k).drag_client d).2 = _
      rw [hstep, heq]
    · rw [Ring.next_index_eq (by omega), hmod, Nat.mod_add_mod, Nat.succ_mul,
        ← Nat.add_assoc]

/-- C4: on a ring of `n ≥ 2` clients under a layout that does not suppress
the moves, `n` drags in one direction restore the workspace exactly; after
every individual drag the focus is still on the dragged element; and every
drag preserves the ring length and its multiset of members. -/
theorem c4_drag_cycle (ws : Workspace) (d : Direction) (conf : LayoutConf)
    (r : List WinId) (x : WinId) (i : Nat)
    (hconf : ws.layout_conf = some conf) (hff : conf.follow_focus = false)
    (hc : ws.clients = ⟨List.insertIdx i x r, some i⟩)
    (hi : i ≤ r.length) (hr : 1 ≤ r.length) :
    dragIter ws d ws.len = ws ∧
    (∀ k, (dragIter ws d k).focused_client = some x) ∧
    (∀ k, (dragIter ws d k).len = ws.len ∧
      ((dragIter ws d k).iter).Perm ws.iter) := by
  have hiter := Workspace.dragIter_insert (d := d) hconf hff hc hi hr
  have hlen : (List.insertIdx i x r).length = r.length + 1 := List.length_insertIdx i r hi
  have hwslen : ws.len = r.length + 1 := by
    show ws.clients.len = _
    rw [hc]
    exact hlen
  refine ⟨?_, fun k => ?_, fun k => ?_⟩
  · obtain ⟨m, hm, heq, hmod⟩ := hiter ws.len
    rw [hwslen] at hmod
    rw [Nat.add_mul_mod_self_left, Nat.mod_eq_of_lt (by omega)] at hmod
    rw [heq, hmod, ← hc]
  · obtain ⟨m, hm, heq, -⟩ := hiter k
    rw [heq]
    show (Ring.mk (List.insertIdx m x r) (some m)).focused = some x
    rw [Ring.focused_of_focus rfl]
    rw [List.getElem?_eq_getElem (by rw [List.length_insertIdx m r hm]; omega),
      List.getElem_insertIdx_self r x m hm]
  · obtain ⟨m, hm, heq, -⟩ := hiter k
    constructor
    · rw [heq, hwslen]
      show (List.insertIdx m x r).length = _
      rw [List.length_insertIdx m r hm]
    · rw [heq]
      show (List.insertIdx m x r).Perm ws.iter
      have h1 := insertIdx_perm x m r hm
      have h2 := insertIdx_perm x i r hi
      show (List.insertIdx m x r).Perm ws.clients.elements
      rw [hc]
      exact h1.trans h2.symm

/-- Witness for C4: spec scenario A, ring `[1, 2, 3, 4]` focused on `1`; four
forward drags restore the workspace, focus staying on `1` throughout. -/
theorem c4_drag_cycle_witness :
    dragIter ws4 Direction.Forward ws4.len = ws4 ∧
    (∀ k, (dragIter ws4 Direction.Forward k).focused_client = some 1) ∧
    (∀ k, (dragIter ws4 Direction.Forward k).len = ws4.len ∧
      ((dragIter ws4 Direction.Forward k).iter).Perm ws4.iter) :=
  c4_drag_cycle ws4 Direction.Forward ⟨false⟩ [2, 3, 4] 1 0 rfl rfl rfl
    (Nat.zero_le _) (by decide)

end Penrose
